import Mathlib

/-!
A shallow embedding of the weighted-Voronoi mosaic generator
(`src/main.rs`): pixel indexing, center-biased sampling weights, the
position/color distance score, the per-pixel nearest-seed scan, and the
surrounding run pipeline.  `f64` arithmetic is modelled exactly: by `ℚ`
where the source computes rational expressions and by `ℝ` where it takes
square roots; `u32` squaring and multiplication are modelled with their
release-mode wrap-around `% 2^32`.
-/

/-- Color of a pixel: an `N = 3` channel `[u8; 3]` value, each channel a
natural number below 256. -/
abbrev Color := ℕ × ℕ × ℕ

/-- Pixel sample `(x, y, color)` as produced by `enumerate_pixels`. -/
abbrev Pix := ℕ × ℕ × Color

/-- Absolute difference on naturals, modelling `u32::abs_diff` and
`u8::abs_diff`. -/
def abs_diff (a b : ℕ) : ℕ := max a b - min a b

/-- Wrap-around of `u32` arithmetic (release mode) modulo `2 ^ 32`. -/
def u32 (n : ℕ) : ℕ := n % 2 ^ 32

/-- Squared position distance computed by `score` (src/main.rs line 65):
`f64::from(x.abs_diff(px).pow(2)) + f64::from(y.abs_diff(py).pow(2))`;
the squaring happens in `u32` and wraps modulo `2 ^ 32`. -/
def pos_dist (x y px py : ℕ) : ℚ :=
  (u32 (abs_diff x px ^ 2) : ℚ) + (u32 (abs_diff y py ^ 2) : ℚ)

/-- Summed per-channel color distance computed by `score`
(src/main.rs lines 70-72). -/
def color_dist (c pc : Color) : ℚ :=
  (abs_diff c.1 pc.1 : ℚ) + (abs_diff c.2.1 pc.2.1 : ℚ) + (abs_diff c.2.2 pc.2.2 : ℚ)

/-- Constant `COLOR_WEIGHT_MULT` (src/main.rs line 52). -/
def COLOR_WEIGHT_MULT : ℚ := 10000

/-- Dissimilarity score between a query pixel and a seed point
(src/main.rs lines 54-76).  `mcd` and `mpd` are the run-level
`max_color_dist` and `max_pos_dist` arguments. -/
def score (pixel point : Pix) (color_weight mcd mpd : ℚ) : ℚ :=
  let p := pos_dist pixel.1 pixel.2.1 point.1 point.2.1
  if color_weight = 0 then p
  else p / mpd + color_dist pixel.2.2 point.2.2 / mcd * color_weight / COLOR_WEIGHT_MULT

/-- Per-run constant `max_pos_dist` (src/main.rs line 92):
`f64::from(img_width.pow(2)) + f64::from(img_height.pow(2))`, the
squarings performed in `u32`. -/
def max_pos_dist (w h : ℕ) : ℚ := (u32 (w ^ 2) : ℚ) + (u32 (h ^ 2) : ℚ)

/-- Per-run constant `max_color_dist` (src/main.rs line 93):
`255.0 * f64::from(CHANNEL_COUNT)` with three channels. -/
def max_color_dist : ℚ := 255 * 3

/-- Value of `f64::MAX`, the initial `min_score` (src/main.rs line 137). -/
def f64MAX : ℚ := (2 ^ 53 - 1) * 2 ^ 971

/-- State of the per-pixel seed loop (src/main.rs lines 137-139). -/
structure ScanSt where
  min_score : ℚ
  min_color : Color
  min_pos : ℕ × ℕ

/-- One iteration of the seed loop (src/main.rs lines 140-154): update the
running minimum on a strict `<` improvement. -/
def scanStep (pixel : Pix) (cw mcd mpd : ℚ) (st : ScanSt) (pt : Pix) : ScanSt :=
  let s := score pixel pt cw mcd mpd
  if s < st.min_score then ⟨s, pt.2.2, (pt.1, pt.2.1)⟩ else st

/-- Initial loop state: `min_score = f64::MAX`, `min_color = [0,0,0]`,
`min_pos = (0,0)` (src/main.rs lines 137-139). -/
def initSt : ScanSt := ⟨f64MAX, (0, 0, 0), (0, 0)⟩

/-- Full seed scan for one output pixel (src/main.rs lines 137-154). -/
def scanPoints (pixel : Pix) (pts : List Pix) (cw mcd mpd : ℚ) : ScanSt :=
  pts.foldl (scanStep pixel cw mcd mpd) initSt

/-- Per-channel inversion `u8::MAX - c` (src/main.rs line 161). -/
def invertColor (c : Color) : Color := (255 - c.1, 255 - c.2.1, 255 - c.2.2)

/-- One output pixel (src/main.rs lines 136-164): scan all seeds, then
optionally invert the winning color inside the highlight radius of the
winning seed; the radius test multiplies in `u32` and hence wraps. -/
def renderPixel (x y : ℕ) (c : Color) (pts : List Pix) (cw mcd mpd : ℚ)
    (pr : Option ℕ) : Color :=
  let st := scanPoints (x, y, c) pts cw mcd mpd
  match pr with
  | none => st.min_color
  | some radius =>
    let dx := abs_diff x st.min_pos.1
    let dy := abs_diff y st.min_pos.2
    if u32 (u32 (dx * dx) + u32 (dy * dy)) ≤ u32 (radius * radius) then
      invertColor st.min_color
    else st.min_color

/-- The output image, row-major, one color per pixel (src/main.rs
lines 133-172); `base` is the blurred base image whose color at `(x, y)`
is the query color fed to `score`. -/
def renderImage (w h : ℕ) (base : ℕ → ℕ → Color) (pts : List Pix) (cw : ℚ)
    (pr : Option ℕ) : List Color :=
  (List.range (w * h)).map fun k =>
    renderPixel (k % w) (k / w) (base (k % w) (k / w)) pts cw max_color_dist
      (max_pos_dist w h) pr

/-- Pixel index (src/main.rs lines 107-118): every pixel of the image as
`(x, y, color)`, in row-major order. -/
def pixelIndex (w h : ℕ) (img : ℕ → ℕ → Color) : List Pix :=
  (List.range (w * h)).map fun k => (k % w, k / w, img (k % w) (k / w))

/-- Seed sampling loop (src/main.rs lines 125-128): `N` indexing draws
into the pixel index; the categorical sampler's successive outputs are
abstracted by `draw`. -/
def samplePoints (pixels : List Pix) (n : ℕ) (draw : ℕ → ℕ) : List Pix :=
  (List.range n).map fun k => pixels.getD (draw k) (0, 0, (0, 0, 0))

/-- Per-pixel sampling weight (src/main.rs lines 39-50). -/
noncomputable def weight (p : Pix) (width height : ℕ) : ℝ :=
  let center_x : ℝ := (width : ℝ) / 2
  let center_y : ℝ := (height : ℝ) / 2
  let x_dist : ℝ := ((p.1 : ℝ) - center_x) / (width : ℝ)
  let y_dist : ℝ := ((p.2.1 : ℝ) - center_y) / (height : ℝ)
  let dist : ℝ := Real.sqrt (Real.sqrt (x_dist ^ 2 + y_dist ^ 2))
  let dist_weight : ℝ := 1 / (dist + 1)
  dist_weight - 0.3

/-- Squared normalized radial offset `dx^2 + dy^2` of a pixel from the
image center, the quantity the weight falloff is a function of. -/
noncomputable def rho (p : Pix) (width height : ℕ) : ℝ :=
  (((p.1 : ℝ) - (width : ℝ) / 2) / (width : ℝ)) ^ 2 +
    (((p.2.1 : ℝ) - (height : ℝ) / 2) / (height : ℝ)) ^ 2

/-- Error raised by the weighted-distribution construction (spec section 7). -/
inductive WErr where
  | InvalidWeights
deriving DecidableEq

open Classical in
/-- Modelled from the spec: `WeightedIndex::new` of the external `rand`
crate (called at src/main.rs line 124, not part of this repository) —
"if all weights are non-positive ... the weighted-distribution
construction fails with an `InvalidWeights` error". -/
noncomputable def weightedIndexNew (ws : List ℝ) : Except WErr Unit :=
  if ∀ w ∈ ws, w ≤ 0 then Except.error WErr.InvalidWeights else Except.ok ()

/-- Seed resolution (src/main.rs lines 95-102): the caller seed when
supplied, otherwise a value drawn from the process entropy source. -/
def resolveSeed (argSeed : Option ℕ) (entropy : ℕ) : ℕ := argSeed.getD entropy

/-- Channelwise mean of three colors. -/
def avg3 (a b c : Color) : Color :=
  ((a.1 + b.1 + c.1) / 3, (a.2.1 + b.2.1 + c.2.1) / 3, (a.2.2 + b.2.2 + c.2.2) / 3)

/-- Modelled from the spec: `fast_blur` of the external `image` crate
(called at src/main.rs line 135, not part of this repository) — "apply a
Gaussian-style blur with caller-specified radius/sigma"; "if blur amount
is zero, output base is the unmodified source".  Nonzero amounts are
modelled as a horizontal three-tap mean (clamped at the borders),
standing in for Gaussian color mixing. -/
def modelBlur (w : ℕ) (img : ℕ → ℕ → Color) (amount : ℚ) : ℕ → ℕ → Color :=
  if amount = 0 then img
  else fun x y => avg3 (img (x - 1) y) (img x y) (img (min (x + 1) (w - 1)) y)

/-- The core run (src/main.rs `main`, lines 78-180): index the pixels,
build the weighted distribution (fatal `unwrap` on failure), resolve the
seed, draw the seed points, and render.  `entropy` models the process
entropy source, consumed only when no caller seed is supplied; the
seeded categorical sampler is abstracted by `rngF`, a deterministic
stream of draws indexed by the resolved seed. -/
noncomputable def run (w h : ℕ) (img : ℕ → ℕ → Color) (nPoints : ℕ)
    (argSeed : Option ℕ) (cw blurAmount : ℚ) (pr : Option ℕ)
    (rngF : ℕ → ℕ → ℕ) (entropy : ℕ) : Except WErr (List Color) :=
  match weightedIndexNew ((pixelIndex w h img).map (fun p => weight p w h)) with
  | Except.error e => Except.error e
  | Except.ok _ =>
    Except.ok (renderImage w h (modelBlur w img blurAmount)
      (samplePoints (pixelIndex w h img) nPoints
        (fun k => rngF (resolveSeed argSeed entropy) k % (pixelIndex w h img).length))
      cw pr)

/-! Helper lemmas. -/

/-- The natural absolute difference, cast to `ℚ`, is the rational absolute
value of the difference. -/
theorem abs_diff_cast (a b : ℕ) : ((abs_diff a b : ℕ) : ℚ) = |(a : ℚ) - (b : ℚ)| := by
  unfold abs_diff
  rcases le_total a b with h | h
  · rw [max_eq_right h, min_eq_left h, abs_sub_comm,
      abs_of_nonneg (sub_nonneg.mpr (by exact_mod_cast h : (a : ℚ) ≤ (b : ℚ)))]
    push_cast [h]
    ring
  · rw [max_eq_left h, min_eq_right h,
      abs_of_nonneg (sub_nonneg.mpr (by exact_mod_cast h : (b : ℚ) ≤ (a : ℚ)))]
    push_cast [h]
    ring

/-- Below difference 2^16 the wrapped `u32` square is the exact square. -/
theorem abs_diff_sq_cast (a b : ℕ) (h : abs_diff a b < 65536) :
    (u32 (abs_diff a b ^ 2) : ℚ) = ((a : ℚ) - (b : ℚ)) ^ 2 := by
  have h65 : abs_diff a b ≤ 65535 := by omega
  have h2 : abs_diff a b ^ 2 < 2 ^ 32 :=
    lt_of_le_of_lt (Nat.pow_le_pow_left h65 2) (by norm_num)
  rw [u32, Nat.mod_eq_of_lt h2]
  push_cast
  rw [abs_diff_cast, sq_abs]

/-- The pixel index enumerates exactly `w * h` samples. -/
theorem pixelIndex_length (w h : ℕ) (img : ℕ → ℕ → Color) :
    (pixelIndex w h img).length = w * h := by
  simp [pixelIndex]

/-- The top-left pixel sample belongs to the index of any non-empty image. -/
theorem mem_pixelIndex_zero (w h : ℕ) (img : ℕ → ℕ → Color) (hw : 1 ≤ w) (hh : 1 ≤ h) :
    (0, 0, img 0 0) ∈ pixelIndex w h img := by
  unfold pixelIndex
  refine List.mem_map.mpr ⟨0, List.mem_range.mpr (Nat.mul_pos hw hh), ?_⟩
  simp

/-- Characterization of the seed-scan fold from an arbitrary start state:
either no seed improves on the start state, or the fold returns the data of
the first seed achieving the minimal score. -/
theorem foldl_scanStep_spec (pixel : Pix) (cw mcd mpd : ℚ) (pts : List Pix) :
    ∀ st : ScanSt,
      (pts.foldl (scanStep pixel cw mcd mpd) st = st ∧
        ∀ pt ∈ pts, st.min_score ≤ score pixel pt cw mcd mpd) ∨
      (∃ i : Fin pts.length,
        pts.foldl (scanStep pixel cw mcd mpd) st =
          ⟨score pixel (pts.get i) cw mcd mpd, (pts.get i).2.2,
            ((pts.get i).1, (pts.get i).2.1)⟩ ∧
        score pixel (pts.get i) cw mcd mpd < st.min_score ∧
        (∀ pt ∈ pts, score pixel (pts.get i) cw mcd mpd ≤ score pixel pt cw mcd mpd) ∧
        (∀ j : Fin pts.length, j < i →
          score pixel (pts.get i) cw mcd mpd < score pixel (pts.get j) cw mcd mpd)) := by
  induction pts with
  | nil => intro st; exact Or.inl ⟨rfl, by simp⟩
  | cons p rest ih =>
    intro st
    rw [List.foldl_cons]
    by_cases hc : score pixel p cw mcd mpd < st.min_score
    · have hstep : scanStep pixel cw mcd mpd st p =
          ⟨score pixel p cw mcd mpd, p.2.2, (p.1, p.2.1)⟩ := by
        simp [scanStep, hc]
      rw [hstep]
      rcases ih ⟨score pixel p cw mcd mpd, p.2.2, (p.1, p.2.1)⟩ with
        ⟨heq, hall⟩ | ⟨i, heq, hlt, hmin, hfirst⟩
      · refine Or.inr ⟨⟨0, Nat.succ_pos _⟩, heq, hc, ?_, ?_⟩
        · intro pt hpt
          rcases List.mem_cons.mp hpt with h | h
          · subst h; exact le_refl _
          · exact hall pt h
        · intro j hj
          exact absurd hj (by simp [Fin.lt_def])
      · refine Or.inr ⟨i.succ, heq, lt_trans hlt hc, ?_, ?_⟩
        · intro pt hpt
          rcases List.mem_cons.mp hpt with h | h
          · subst h; exact le_of_lt hlt
          · exact hmin pt h
        · intro j hj
          rcases j with ⟨jv, hjlt⟩
          cases jv with
          | zero => exact hlt
          | succ jv' =>
            have hjr : jv' < rest.length := by simp at hjlt; omega
            have hj' : (⟨jv', hjr⟩ : Fin rest.length) < i := by
              simpa [Fin.lt_def] using hj
            exact hfirst ⟨jv', hjr⟩ hj'
    · have hstep : scanStep pixel cw mcd mpd st p = st := by simp [scanStep, hc]
      rw [hstep]
      rcases ih st with ⟨heq, hall⟩ | ⟨i, heq, hlt, hmin, hfirst⟩
      · refine Or.inl ⟨heq, ?_⟩
        intro pt hpt
        rcases List.mem_cons.mp hpt with h | h
        · subst h; exact not_lt.mp hc
        · exact hall pt h
      · refine Or.inr ⟨i.succ, heq, hlt, ?_, ?_⟩
        · intro pt hpt
          rcases List.mem_cons.mp hpt with h | h
          · subst h; exact le_of_lt (lt_of_lt_of_le hlt (not_lt.mp hc))
          · exact hmin pt h
        · intro j hj
          rcases j with ⟨jv, hjlt⟩
          cases jv with
          | zero => exact lt_of_lt_of_le hlt (not_lt.mp hc)
          | succ jv' =>
            have hjr : jv' < rest.length := by simp at hjlt; omega
            have hj' : (⟨jv', hjr⟩ : Fin rest.length) < i := by
              simpa [Fin.lt_def] using hj
            exact hfirst ⟨jv', hjr⟩ hj'

/-! Claim theorems. -/

/-- C1: for every output pixel, the renderer assigns the color (and records
the position) of the seed minimizing the score over the full seed set; the
scan is in seed order with a strict `<` comparison, so on an exact tie the
earliest seed wins: the selected index `i` has a score `≤` every seed's
score and strictly below that of every earlier index. -/
theorem renderer_assigns_first_min_seed (x y : ℕ) (c : Color) (cw mcd mpd : ℚ)
    (pts : List Pix) (h1 : pts ≠ [])
    (h2 : ∀ pt ∈ pts, score (x, y, c) pt cw mcd mpd < f64MAX) :
    ∃ i : Fin pts.length,
      (scanPoints (x, y, c) pts cw mcd mpd).min_color = (pts.get i).2.2 ∧
      (scanPoints (x, y, c) pts cw mcd mpd).min_pos = ((pts.get i).1, (pts.get i).2.1) ∧
      renderPixel x y c pts cw mcd mpd none = (pts.get i).2.2 ∧
      (∀ pt ∈ pts, score (x, y, c) (pts.get i) cw mcd mpd ≤ score (x, y, c) pt cw mcd mpd) ∧
      (∀ j : Fin pts.length, j < i →
        score (x, y, c) (pts.get i) cw mcd mpd < score (x, y, c) (pts.get j) cw mcd mpd) := by
  have hdef : scanPoints (x, y, c) pts cw mcd mpd
      = pts.foldl (scanStep (x, y, c) cw mcd mpd) initSt := rfl
  have hrp : renderPixel x y c pts cw mcd mpd none
      = (scanPoints (x, y, c) pts cw mcd mpd).min_color := rfl
  rcases foldl_scanStep_spec (x, y, c) cw mcd mpd pts initSt with
    ⟨heq, hall⟩ | ⟨i, heq, hlt, hmin, hfirst⟩
  · rcases List.exists_mem_of_ne_nil pts h1 with ⟨pt, hpt⟩
    exact absurd (h2 pt hpt) (not_lt.mpr (hall pt hpt))
  · refine ⟨i, ?_, ?_, ?_, hmin, hfirst⟩
    · rw [hdef, heq]
    · rw [hdef, heq]
    · rw [hrp, hdef, heq]

/-- Witness for C1 at a concrete pixel and two concrete seeds. -/
theorem renderer_assigns_first_min_seed_witness :
    ∃ i : Fin ([((0 : ℕ), (0 : ℕ), ((1, 2, 3) : Color)), (5, 0, (4, 5, 6))].length),
      (scanPoints (0, 0, ((7, 7, 7) : Color))
          [(0, 0, ((1, 2, 3) : Color)), (5, 0, (4, 5, 6))] 0 765 2).min_color
        = ([((0 : ℕ), (0 : ℕ), ((1, 2, 3) : Color)), (5, 0, (4, 5, 6))].get i).2.2 ∧
      (scanPoints (0, 0, ((7, 7, 7) : Color))
          [(0, 0, ((1, 2, 3) : Color)), (5, 0, (4, 5, 6))] 0 765 2).min_pos
        = (([((0 : ℕ), (0 : ℕ), ((1, 2, 3) : Color)), (5, 0, (4, 5, 6))].get i).1,
            ([((0 : ℕ), (0 : ℕ), ((1, 2, 3) : Color)), (5, 0, (4, 5, 6))].get i).2.1) ∧
      renderPixel 0 0 ((7, 7, 7) : Color)
          [(0, 0, ((1, 2, 3) : Color)), (5, 0, (4, 5, 6))] 0 765 2 none
        = ([((0 : ℕ), (0 : ℕ), ((1, 2, 3) : Color)), (5, 0, (4, 5, 6))].get i).2.2 ∧
      (∀ pt ∈ [((0 : ℕ), (0 : ℕ), ((1, 2, 3) : Color)), (5, 0, (4, 5, 6))],
        score (0, 0, ((7, 7, 7) : Color))
            ([((0 : ℕ), (0 : ℕ), ((1, 2, 3) : Color)), (5, 0, (4, 5, 6))].get i) 0 765 2
          ≤ score (0, 0, ((7, 7, 7) : Color)) pt 0 765 2) ∧
      (∀ j : Fin ([((0 : ℕ), (0 : ℕ), ((1, 2, 3) : Color)), (5, 0, (4, 5, 6))].length), j < i →
        score (0, 0, ((7, 7, 7) : Color))
            ([((0 : ℕ), (0 : ℕ), ((1, 2, 3) : Color)), (5, 0, (4, 5, 6))].get i) 0 765 2
          < score (0, 0, ((7, 7, 7) : Color))
              ([((0 : ℕ), (0 : ℕ), ((1, 2, 3) : Color)), (5, 0, (4, 5, 6))].get j) 0 765 2) :=
  renderer_assigns_first_min_seed 0 0 (7, 7, 7) 0 765 2
    [(0, 0, (1, 2, 3)), (5, 0, (4, 5, 6))] (by simp)
    (by
      intro pt hpt
      rcases List.mem_cons.mp hpt with h | h
      · subst h; norm_num [score, pos_dist, u32, abs_diff, f64MAX]
      · rcases List.mem_cons.mp h with h | h
        · subst h; norm_num [score, pos_dist, u32, abs_diff, f64MAX]
        · simp at h)

/-- C3: with a color-weight of exactly zero the score is the (computed)
`pos_dist` alone, and the color channels of both the query pixel and the
seed have no influence on the score. -/
theorem score_zero_weight_pos_only (x y px py : ℕ) (c pc : Color) (cw mcd mpd : ℚ)
    (h : cw = 0) :
    score (x, y, c) (px, py, pc) cw mcd mpd = pos_dist x y px py ∧
    ∀ c' pc' : Color, score (x, y, c') (px, py, pc') cw mcd mpd
      = score (x, y, c) (px, py, pc) cw mcd mpd := by
  subst h
  constructor
  · simp [score]
  · intro c' pc'
    simp [score]

/-- Witness for C3 at concrete coordinates and colors. -/
theorem score_zero_weight_pos_only_witness :
    score (1, 2, ((9, 9, 9) : Color)) (4, 6, ((0, 0, 0) : Color)) 0 765 2 = pos_dist 1 2 4 6 ∧
    ∀ c' pc' : Color, score (1, 2, c') (4, 6, pc') 0 765 2
      = score (1, 2, ((9, 9, 9) : Color)) (4, 6, ((0, 0, 0) : Color)) 0 765 2 :=
  score_zero_weight_pos_only 1 2 4 6 (9, 9, 9) (0, 0, 0) 0 765 2 rfl

/-- C8 counterexample: at coordinate difference 2^16 the `u32` squaring
wraps to 0, so the computed `pos_dist` differs from the exact squared
Euclidean distance. -/
theorem pos_dist_overflow_cex :
    pos_dist 0 0 65536 0 ≠ ((0 : ℚ) - 65536) ^ 2 + ((0 : ℚ) - 0) ^ 2 := by
  norm_num [pos_dist, u32, abs_diff]

/-- C8 amended: the computed `pos_dist` equals the exact squared Euclidean
distance whenever both absolute coordinate differences are below 2^16 (so
the `u32` squarings do not overflow). -/
theorem pos_dist_exact_below_u32 (x y px py : ℕ)
    (h1 : abs_diff x px < 65536) (h2 : abs_diff y py < 65536) :
    pos_dist x y px py = ((x : ℚ) - (px : ℚ)) ^ 2 + ((y : ℚ) - (py : ℚ)) ^ 2 := by
  unfold pos_dist
  rw [abs_diff_sq_cast x px h1, abs_diff_sq_cast y py h2]

/-- Witness for the amended C8 at concrete coordinates. -/
theorem pos_dist_exact_below_u32_witness :
    pos_dist 3 4 1 2 = ((3 : ℚ) - (1 : ℚ)) ^ 2 + ((4 : ℚ) - (2 : ℚ)) ^ 2 :=
  pos_dist_exact_below_u32 3 4 1 2 (by norm_num [abs_diff]) (by norm_num [abs_diff])

/-- C2 counterexample: on a 65537-wide image the `u32` squarings in both
`pos_dist` and `max_pos_dist` wrap, so the computed score differs from the
claimed formula with exact squared distance and `max_pos_dist = W^2 + H^2`
(here the seed at `(65536, 0)` and the query at `(0, 0)` have the same
color, nonzero color weight 3.5). -/
theorem score_formula_cex :
    score (0, 0, ((0, 0, 0) : Color)) (65536, 0, ((0, 0, 0) : Color)) (7 / 2) max_color_dist
        (max_pos_dist 65537 1)
      ≠ (((0 : ℚ) - 65536) ^ 2 + ((0 : ℚ) - 0) ^ 2) / ((65537 : ℚ) ^ 2 + (1 : ℚ) ^ 2)
        + (0 : ℚ) / (255 * 3) * ((7 / 2 : ℚ) / 10000) := by
  norm_num [score, pos_dist, max_pos_dist, max_color_dist, u32, abs_diff, color_dist,
    COLOR_WEIGHT_MULT]

/-- C2 amended: for an image with `W, H ≤ 65535` and in-bounds query and
seed positions (so no `u32` squaring overflows), and a nonzero color
weight, the score is exactly
`pos_dist / max_pos_dist + (color_dist / max_color_dist) * (cw / 10000)`
with `pos_dist` the exact squared Euclidean distance, `color_dist` the
summed per-channel absolute difference, `max_pos_dist = W^2 + H^2` and
`max_color_dist = 255 * 3`. -/
theorem score_formula_below_u32 (w h x y px py : ℕ) (c pc : Color) (cw : ℚ)
    (hw : w ≤ 65535) (hh : h ≤ 65535) (hx : x < w) (hpx : px < w) (hy : y < h)
    (hpy : py < h) (hcw : cw ≠ 0) :
    score (x, y, c) (px, py, pc) cw max_color_dist (max_pos_dist w h)
        = (((x : ℚ) - (px : ℚ)) ^ 2 + ((y : ℚ) - (py : ℚ)) ^ 2) / ((w : ℚ) ^ 2 + (h : ℚ) ^ 2)
          + (|(c.1 : ℚ) - (pc.1 : ℚ)| + |(c.2.1 : ℚ) - (pc.2.1 : ℚ)|
              + |(c.2.2 : ℚ) - (pc.2.2 : ℚ)|) / (255 * 3) * (cw / 10000) ∧
      max_pos_dist w h = (w : ℚ) ^ 2 + (h : ℚ) ^ 2 ∧ max_color_dist = 255 * 3 := by
  have hw2 : w ^ 2 < 2 ^ 32 := lt_of_le_of_lt (Nat.pow_le_pow_left hw 2) (by norm_num)
  have hh2 : h ^ 2 < 2 ^ 32 := lt_of_le_of_lt (Nat.pow_le_pow_left hh 2) (by norm_num)
  have hmp : max_pos_dist w h = (w : ℚ) ^ 2 + (h : ℚ) ^ 2 := by
    unfold max_pos_dist u32
    rw [Nat.mod_eq_of_lt hw2, Nat.mod_eq_of_lt hh2]
    push_cast
    ring
  have hdx : abs_diff x px < 65536 := by
    have h1 : abs_diff x px ≤ max x px := Nat.sub_le _ _
    have h2 : max x px < w := Nat.max_lt.mpr ⟨hx, hpx⟩
    omega
  have hdy : abs_diff y py < 65536 := by
    have h1 : abs_diff y py ≤ max y py := Nat.sub_le _ _
    have h2 : max y py < h := Nat.max_lt.mpr ⟨hy, hpy⟩
    omega
  refine ⟨?_, hmp, rfl⟩
  have hpd : pos_dist x y px py = ((x : ℚ) - (px : ℚ)) ^ 2 + ((y : ℚ) - (py : ℚ)) ^ 2 :=
    pos_dist_exact_below_u32 x y px py hdx hdy
  have hcd : color_dist c pc
      = |(c.1 : ℚ) - (pc.1 : ℚ)| + |(c.2.1 : ℚ) - (pc.2.1 : ℚ)| + |(c.2.2 : ℚ) - (pc.2.2 : ℚ)| := by
    unfold color_dist
    rw [abs_diff_cast, abs_diff_cast, abs_diff_cast]
  simp only [score, hcw, if_false, COLOR_WEIGHT_MULT, max_color_dist]
  rw [hpd, hcd, hmp]
  ring

/-- Witness for the amended C2 at a concrete small image. -/
theorem score_formula_below_u32_witness :
    score (0, 0, ((0, 0, 0) : Color)) (1, 1, ((10, 0, 0) : Color)) (7 / 2) max_color_dist
        (max_pos_dist 2 2)
      = (((0 : ℚ) - (1 : ℚ)) ^ 2 + ((0 : ℚ) - (1 : ℚ)) ^ 2) / ((2 : ℚ) ^ 2 + (2 : ℚ) ^ 2)
        + (|(0 : ℚ) - (10 : ℚ)| + |(0 : ℚ) - (0 : ℚ)| + |(0 : ℚ) - (0 : ℚ)|) / (255 * 3)
          * ((7 / 2 : ℚ) / 10000) ∧
      max_pos_dist 2 2 = (2 : ℚ) ^ 2 + (2 : ℚ) ^ 2 ∧ max_color_dist = 255 * 3 :=
  score_formula_below_u32 2 2 0 0 1 1 (0, 0, 0) (10, 0, 0) (7 / 2) (by norm_num)
    (by norm_num) (by norm_num) (by norm_num) (by norm_num) (by norm_num) (by norm_num)

/-- The weight is the claimed closed-form falloff of `rho`. -/
theorem weight_eq_rho (p : Pix) (w h : ℕ) :
    weight p w h = 1 / (Real.sqrt (Real.sqrt (rho p w h)) + 1) - 0.3 := rfl

/-- The squared radial offset is non-negative. -/
theorem rho_nonneg (p : Pix) (w h : ℕ) : 0 ≤ rho p w h := by
  unfold rho
  positivity

/-- Range of the weight: always in `(-0.3, 0.7]`. -/
theorem weight_mem_range (p : Pix) (w h : ℕ) :
    -(0.3 : ℝ) < weight p w h ∧ weight p w h ≤ 0.7 := by
  rw [weight_eq_rho]
  have h03 : (0.3 : ℝ) = 3 / 10 := by norm_num
  have h07 : (0.7 : ℝ) = 7 / 10 := by norm_num
  have hd : 0 ≤ Real.sqrt (Real.sqrt (rho p w h)) := Real.sqrt_nonneg _
  have h1 : 0 < 1 / (Real.sqrt (Real.sqrt (rho p w h)) + 1) := by positivity
  have h2 : 1 / (Real.sqrt (Real.sqrt (rho p w h)) + 1) ≤ 1 := by
    rw [div_le_one (by positivity)]
    linarith
  rw [h03, h07]
  constructor <;> linarith

/-- The weight is strictly antitone in the squared radial offset. -/
theorem weight_strict_anti (p q : Pix) (w h : ℕ) (hlt : rho p w h < rho q w h) :
    weight q w h < weight p w h := by
  rw [weight_eq_rho, weight_eq_rho]
  have h1 : Real.sqrt (rho p w h) < Real.sqrt (rho q w h) :=
    Real.sqrt_lt_sqrt (rho_nonneg p w h) hlt
  have h2 : Real.sqrt (Real.sqrt (rho p w h)) < Real.sqrt (Real.sqrt (rho q w h)) :=
    Real.sqrt_lt_sqrt (Real.sqrt_nonneg _) h1
  have h3 : 1 / (Real.sqrt (Real.sqrt (rho q w h)) + 1)
      < 1 / (Real.sqrt (Real.sqrt (rho p w h)) + 1) :=
    one_div_lt_one_div_of_lt (by positivity) (by linarith)
  linarith

/-- In-bounds pixels have squared radial offset at most 1/2. -/
theorem rho_le_half (w h x y : ℕ) (c : Color) (hw : 1 ≤ w) (hh : 1 ≤ h)
    (hx : x < w) (hy : y < h) : rho (x, y, c) w h ≤ 1 / 2 := by
  unfold rho
  have hw0 : (0 : ℝ) < w := by exact_mod_cast hw
  have hh0 : (0 : ℝ) < h := by exact_mod_cast hh
  have hx1 : (x : ℝ) ≤ w := by exact_mod_cast hx.le
  have hy1 : (y : ℝ) ≤ h := by exact_mod_cast hy.le
  have hx0 : (0 : ℝ) ≤ x := Nat.cast_nonneg x
  have hy0 : (0 : ℝ) ≤ y := Nat.cast_nonneg y
  have hxq : ((w : ℝ) / 2) ^ 2 / (w : ℝ) ^ 2 = 1 / 4 := by
    field_simp
    ring
  have hyq : ((h : ℝ) / 2) ^ 2 / (h : ℝ) ^ 2 = 1 / 4 := by
    field_simp
    ring
  have hxd : (((x : ℝ) - (w : ℝ) / 2) / (w : ℝ)) ^ 2 ≤ 1 / 4 := by
    have h3 : ((x : ℝ) - (w : ℝ) / 2) ^ 2 ≤ ((w : ℝ) / 2) ^ 2 :=
      sq_le_sq' (by linarith) (by linarith)
    calc (((x : ℝ) - (w : ℝ) / 2) / (w : ℝ)) ^ 2
        = ((x : ℝ) - (w : ℝ) / 2) ^ 2 / (w : ℝ) ^ 2 := by rw [div_pow]
      _ ≤ ((w : ℝ) / 2) ^ 2 / (w : ℝ) ^ 2 := by
          exact (div_le_div_right (by positivity)).mpr h3
      _ = 1 / 4 := hxq
  have hyd : (((y : ℝ) - (h : ℝ) / 2) / (h : ℝ)) ^ 2 ≤ 1 / 4 := by
    have h3 : ((y : ℝ) - (h : ℝ) / 2) ^ 2 ≤ ((h : ℝ) / 2) ^ 2 :=
      sq_le_sq' (by linarith) (by linarith)
    calc (((y : ℝ) - (h : ℝ) / 2) / (h : ℝ)) ^ 2
        = ((y : ℝ) - (h : ℝ) / 2) ^ 2 / (h : ℝ) ^ 2 := by rw [div_pow]
      _ ≤ ((h : ℝ) / 2) ^ 2 / (h : ℝ) ^ 2 := by
          exact (div_le_div_right (by positivity)).mpr h3
      _ = 1 / 4 := hyq
  linarith

/-- In-bounds pixels have weight at least `1/((1/2)^(1/4) + 1) - 0.3`,
which is strictly positive. -/
theorem weight_lower_bound (w h x y : ℕ) (c : Color) (hw : 1 ≤ w) (hh : 1 ≤ h)
    (hx : x < w) (hy : y < h) :
    1 / (Real.sqrt (Real.sqrt (1 / 2)) + 1) - 0.3 ≤ weight (x, y, c) w h ∧
    0 < weight (x, y, c) w h := by
  have hρ := rho_le_half w h x y c hw hh hx hy
  have hd0 : 0 ≤ Real.sqrt (Real.sqrt (rho (x, y, c) w h)) := Real.sqrt_nonneg _
  have hd : Real.sqrt (Real.sqrt (rho (x, y, c) w h)) ≤ Real.sqrt (Real.sqrt (1 / 2)) :=
    Real.sqrt_le_sqrt (Real.sqrt_le_sqrt hρ)
  have hs0 : 0 ≤ Real.sqrt (Real.sqrt (1 / 2)) := Real.sqrt_nonneg _
  have hs1 : Real.sqrt (Real.sqrt (1 / 2)) ≤ 1 :=
    Real.sqrt_le_one.mpr (Real.sqrt_le_one.mpr (by norm_num))
  have hb : 1 / (Real.sqrt (Real.sqrt (1 / 2)) + 1)
      ≤ 1 / (Real.sqrt (Real.sqrt (rho (x, y, c) w h)) + 1) :=
    one_div_le_one_div_of_le (by positivity) (by linarith)
  have hb2 : (1 : ℝ) / 2 ≤ 1 / (Real.sqrt (Real.sqrt (1 / 2)) + 1) := by
    have h2 : 1 / (Real.sqrt (Real.sqrt (1 / 2)) + 1) ≥ 1 / 2 := by
      apply one_div_le_one_div_of_le (by positivity)
      linarith
    linarith
  have h03 : (0.3 : ℝ) = 3 / 10 := by norm_num
  rw [weight_eq_rho]
  constructor
  · linarith
  · rw [h03]
    linarith

/-- A weighted-distribution construction over not-all-non-positive weights
succeeds. -/
theorem weightedIndexNew_ok (ws : List ℝ) (hne : ¬ ∀ w ∈ ws, w ≤ 0) :
    weightedIndexNew ws = Except.ok () := by
  unfold weightedIndexNew
  rw [if_neg hne]

/-- A weighted-distribution construction over all-non-positive weights
fails with `InvalidWeights`. -/
theorem weightedIndexNew_err (ws : List ℝ) (hall : ∀ w ∈ ws, w ≤ 0) :
    weightedIndexNew ws = Except.error WErr.InvalidWeights := by
  unfold weightedIndexNew
  rw [if_pos hall]

/-- The weighted-distribution construction over the weights of a non-empty
image succeeds. -/
theorem image_weights_ok (w h : ℕ) (img : ℕ → ℕ → Color) (hw : 1 ≤ w) (hh : 1 ≤ h) :
    weightedIndexNew ((pixelIndex w h img).map (fun p => weight p w h)) = Except.ok () := by
  apply weightedIndexNew_ok
  intro hall
  have hmem : weight (0, 0, img 0 0) w h
      ∈ (pixelIndex w h img).map (fun p => weight p w h) :=
    List.mem_map_of_mem _ (mem_pixelIndex_zero w h img hw hh)
  have hle := hall _ hmem
  have hpos := (weight_lower_bound w h 0 0 (img 0 0) hw hh hw hh).2
  linarith

/-- A failing weighted-distribution construction makes the whole run fail. -/
theorem run_error_of_weights (w h : ℕ) (img : ℕ → ℕ → Color) (n : ℕ) (as : Option ℕ)
    (cw b : ℚ) (pr : Option ℕ) (rngF : ℕ → ℕ → ℕ) (e : ℕ)
    (herr : weightedIndexNew ((pixelIndex w h img).map (fun p => weight p w h))
      = Except.error WErr.InvalidWeights) :
    run w h img n as cw b pr rngF e = Except.error WErr.InvalidWeights := by
  unfold run
  rw [herr]

/-- A successful weighted-distribution construction makes the run render. -/
theorem run_ok_of_weights (w h : ℕ) (img : ℕ → ℕ → Color) (n : ℕ) (as : Option ℕ)
    (cw b : ℚ) (pr : Option ℕ) (rngF : ℕ → ℕ → ℕ) (e : ℕ)
    (hok : weightedIndexNew ((pixelIndex w h img).map (fun p => weight p w h))
      = Except.ok ()) :
    run w h img n as cw b pr rngF e
      = Except.ok (renderImage w h (modelBlur w img b)
          (samplePoints (pixelIndex w h img) n
            (fun k => rngF (resolveSeed as e) k % (pixelIndex w h img).length))
          cw pr) := by
  unfold run
  rw [hok]

/-- C4: the sampling weight equals `1/(r + 1) - 0.3` for
`r = sqrt (sqrt (dx^2 + dy^2))` with the normalized center offsets; it lies
in `(-0.3, 0.7]`, attains `0.7` exactly at radial offset zero (the image
center), and is strictly decreasing in the squared radial offset (equal
offsets give equal weights). -/
theorem weight_formula_range_mono (w h : ℕ) (p : Pix) (hw : 1 ≤ w) (hh : 1 ≤ h) :
    (weight p w h = 1 / (Real.sqrt (Real.sqrt (rho p w h)) + 1) - 0.3) ∧
    (-(0.3 : ℝ) < weight p w h ∧ weight p w h ≤ 0.7) ∧
    (rho p w h = 0 → weight p w h = 0.7) ∧
    (∀ q : Pix, rho p w h < rho q w h → weight q w h < weight p w h) ∧
    (∀ q : Pix, rho p w h = rho q w h → weight q w h = weight p w h) := by
  refine ⟨weight_eq_rho p w h, weight_mem_range p w h, ?_, ?_, ?_⟩
  · intro h0
    rw [weight_eq_rho, h0]
    simp [Real.sqrt_zero]
    norm_num
  · exact fun q hq => weight_strict_anti p q w h hq
  · intro q hq
    rw [weight_eq_rho, weight_eq_rho, hq]

/-- Witness for C4 at the exact center pixel of a 2x2 image. -/
theorem weight_formula_range_mono_witness :
    (weight (1, 1, ((0, 0, 0) : Color)) 2 2
        = 1 / (Real.sqrt (Real.sqrt (rho (1, 1, ((0, 0, 0) : Color)) 2 2)) + 1) - 0.3) ∧
    (-(0.3 : ℝ) < weight (1, 1, ((0, 0, 0) : Color)) 2 2 ∧
      weight (1, 1, ((0, 0, 0) : Color)) 2 2 ≤ 0.7) ∧
    (rho (1, 1, ((0, 0, 0) : Color)) 2 2 = 0 → weight (1, 1, ((0, 0, 0) : Color)) 2 2 = 0.7) ∧
    (∀ q : Pix, rho (1, 1, ((0, 0, 0) : Color)) 2 2 < rho q 2 2 →
      weight q 2 2 < weight (1, 1, ((0, 0, 0) : Color)) 2 2) ∧
    (∀ q : Pix, rho (1, 1, ((0, 0, 0) : Color)) 2 2 = rho q 2 2 →
      weight q 2 2 = weight (1, 1, ((0, 0, 0) : Color)) 2 2) :=
  weight_formula_range_mono 2 2 (1, 1, (0, 0, 0)) (by norm_num) (by norm_num)

/-- C10: in-bounds pixels of a non-empty image have weight bounded below by
`1/((1/2)^(1/4) + 1) - 0.3 > 0`, so the weighted-distribution construction
cannot fail for a non-empty image. -/
theorem weight_positive_no_failure (w h x y : ℕ) (c : Color) (img : ℕ → ℕ → Color)
    (hw : 1 ≤ w) (hh : 1 ≤ h) (hx : x < w) (hy : y < h) :
    (1 / (Real.sqrt (Real.sqrt (1 / 2)) + 1) - 0.3 ≤ weight (x, y, c) w h) ∧
    0 < weight (x, y, c) w h ∧
    weightedIndexNew ((pixelIndex w h img).map (fun p => weight p w h))
      ≠ Except.error WErr.InvalidWeights := by
  obtain ⟨hb, hpos⟩ := weight_lower_bound w h x y c hw hh hx hy
  refine ⟨hb, hpos, ?_⟩
  rw [image_weights_ok w h img hw hh]
  intro hcontra
  exact Except.noConfusion hcontra

/-- Witness for C10 on a 1x1 image. -/
theorem weight_positive_no_failure_witness :
    (1 / (Real.sqrt (Real.sqrt (1 / 2)) + 1) - 0.3
        ≤ weight (0, 0, ((0, 0, 0) : Color)) 1 1) ∧
    0 < weight (0, 0, ((0, 0, 0) : Color)) 1 1 ∧
    weightedIndexNew ((pixelIndex 1 1 (fun _ _ => ((0, 0, 0) : Color))).map
        (fun p => weight p 1 1))
      ≠ Except.error WErr.InvalidWeights :=
  weight_positive_no_failure 1 1 0 0 (0, 0, 0) (fun _ _ => (0, 0, 0)) (by norm_num)
    (by norm_num) (by norm_num) (by norm_num)

/-- C9: the weighted-distribution construction fails with `InvalidWeights`
exactly when all per-pixel weights are non-positive; with the actual weight
function this happens exactly in the 0-sized case (in particular only for
degenerate images), and the failure is fatal: the run aborts with the error
before rendering, while any non-empty image renders successfully. -/
theorem weighted_index_failure_spec :
    (∀ ws : List ℝ,
      weightedIndexNew ws = Except.error WErr.InvalidWeights ↔ ∀ w ∈ ws, w ≤ 0) ∧
    (∀ (h : ℕ) (img : ℕ → ℕ → Color) (n : ℕ) (as : Option ℕ) (cw b : ℚ)
        (pr : Option ℕ) (rngF : ℕ → ℕ → ℕ) (e : ℕ),
      run 0 h img n as cw b pr rngF e = Except.error WErr.InvalidWeights) ∧
    (∀ (w h : ℕ) (img : ℕ → ℕ → Color) (n : ℕ) (as : Option ℕ) (cw b : ℚ)
        (pr : Option ℕ) (rngF : ℕ → ℕ → ℕ) (e : ℕ), 1 ≤ w → 1 ≤ h →
      run w h img n as cw b pr rngF e ≠ Except.error WErr.InvalidWeights) ∧
    (∀ (w h : ℕ) (img : ℕ → ℕ → Color) (n : ℕ) (as : Option ℕ) (cw b : ℚ)
        (pr : Option ℕ) (rngF : ℕ → ℕ → ℕ) (e : ℕ),
      weightedIndexNew ((pixelIndex w h img).map (fun p => weight p w h))
          = Except.error WErr.InvalidWeights →
      run w h img n as cw b pr rngF e = Except.error WErr.InvalidWeights) := by
  refine ⟨?_, ?_, ?_, ?_⟩
  · intro ws
    constructor
    · intro heq
      by_contra hne
      rw [weightedIndexNew_ok ws hne] at heq
      exact Except.noConfusion heq
    · exact weightedIndexNew_err ws
  · intro h img n as cw b pr rngF e
    apply run_error_of_weights
    apply weightedIndexNew_err
    intro v hv
    rcases List.mem_map.mp hv with ⟨p, hp, _⟩
    simp [pixelIndex] at hp
  · intro w h img n as cw b pr rngF e hw hh
    rw [run_ok_of_weights w h img n as cw b pr rngF e (image_weights_ok w h img hw hh)]
    intro hcontra
    exact Except.noConfusion hcontra
  · intro w h img n as cw b pr rngF e herr
    exact run_error_of_weights w h img n as cw b pr rngF e herr

/-- Witness for C9: a 0-sized image aborts with `InvalidWeights`, a 1x1
image does not. -/
theorem weighted_index_failure_spec_witness :
    run 0 1 (fun _ _ => ((0, 0, 0) : Color)) 1 none 0 0 none (fun _ _ => 0) 0
        = Except.error WErr.InvalidWeights ∧
    run 1 1 (fun _ _ => ((0, 0, 0) : Color)) 1 none 0 0 none (fun _ _ => 0) 0
        ≠ Except.error WErr.InvalidWeights :=
  ⟨weighted_index_failure_spec.2.1 1 (fun _ _ => (0, 0, 0)) 1 none 0 0 none (fun _ _ => 0) 0,
    weighted_index_failure_spec.2.2.1 1 1 (fun _ _ => (0, 0, 0)) 1 none 0 0 none
      (fun _ _ => 0) 0 (by norm_num) (by norm_num)⟩

/-- C6: with a caller-supplied seed the run is fully determined by the
declared inputs — the process entropy source has no influence, so two runs
on identical inputs (image, point count, color weight, blur amount, point
radius, sampler) produce identical output. -/
theorem run_deterministic_for_fixed_seed (w h : ℕ) (img : ℕ → ℕ → Color) (n : ℕ)
    (s : ℕ) (cw b : ℚ) (pr : Option ℕ) (rngF : ℕ → ℕ → ℕ) (e1 e2 : ℕ) :
    run w h img n (some s) cw b pr rngF e1 = run w h img n (some s) cw b pr rngF e2 := rfl

/-- C7: for a non-empty image and `n ≥ 1` in-range draws, the sampled seed
set has exactly `n` entries, each an element of the pixel index. -/
theorem samplePoints_count_mem (w h n : ℕ) (img : ℕ → ℕ → Color) (draw : ℕ → ℕ)
    (hw : 1 ≤ w) (hh : 1 ≤ h) (hn : 1 ≤ n)
    (hdraw : ∀ k, draw k < (pixelIndex w h img).length) :
    (samplePoints (pixelIndex w h img) n draw).length = n ∧
    ∀ p ∈ samplePoints (pixelIndex w h img) n draw, p ∈ pixelIndex w h img := by
  constructor
  · simp [samplePoints]
  · intro p hp
    rcases List.mem_map.mp hp with ⟨k, _, hpe⟩
    subst hpe
    rw [List.getD_eq_getElem _ _ (hdraw k)]
    exact List.get_mem _ _ _

/-- Witness for C7 on a concrete 2x1 image with two draws. -/
theorem samplePoints_count_mem_witness :
    (samplePoints (pixelIndex 2 1 (fun _ _ => ((3, 3, 3) : Color))) 2 (fun k => k % 2)).length
        = 2 ∧
    ∀ p ∈ samplePoints (pixelIndex 2 1 (fun _ _ => ((3, 3, 3) : Color))) 2 (fun k => k % 2),
      p ∈ pixelIndex 2 1 (fun _ _ => ((3, 3, 3) : Color)) :=
  samplePoints_count_mem 2 1 2 (fun _ _ => (3, 3, 3)) (fun k => k % 2) (by norm_num)
    (by norm_num) (by norm_num)
    (by
      intro k
      have h2 : k % 2 < 2 := Nat.mod_lt k (by norm_num)
      simpa [pixelIndex_length] using h2)

set_option maxHeartbeats 1600000 in
/-- C5 counterexample: with the spec-modelled blur, blur amount 1 and blur
amount 0 give different outputs on a 3x1 black-white-black image with two
seeds at the origin and the default color weight 3.5 — the score is
computed against the blurred base color, so the blur changes which seed
wins. -/
theorem blur_changes_output_cex :
    renderImage 3 1
        (modelBlur 3 (fun x _ => if x = 1 then ((255, 255, 255) : Color) else (0, 0, 0)) 1)
        [(0, 0, ((85, 85, 85) : Color)), (0, 0, ((0, 0, 0) : Color))] (7 / 2) none
      ≠ renderImage 3 1
        (modelBlur 3 (fun x _ => if x = 1 then ((255, 255, 255) : Color) else (0, 0, 0)) 0)
        [(0, 0, ((85, 85, 85) : Color)), (0, 0, ((0, 0, 0) : Color))] (7 / 2) none := by
  norm_num [renderImage, renderPixel, scanPoints, scanStep, score, pos_dist, color_dist,
    u32, abs_diff, modelBlur, avg3, List.range_succ, initSt, f64MAX, max_pos_dist,
    max_color_dist, COLOR_WEIGHT_MULT]

/-- C5 amended: the output is independent of the blurred base exactly when
the color weight is zero; then every pixel's winning seed depends only on
positions, so any two base images (in particular any blur amount and blur
amount zero) give identical outputs. -/
theorem render_base_independent_zero_cw (w h : ℕ) (base base' : ℕ → ℕ → Color)
    (pts : List Pix) (cw : ℚ) (pr : Option ℕ) (hcw : cw = 0) :
    renderImage w h base pts cw pr = renderImage w h base' pts cw pr := by
  subst hcw
  have hrp : ∀ (x y : ℕ) (c c' : Color),
      renderPixel x y c pts 0 max_color_dist (max_pos_dist w h) pr
        = renderPixel x y c' pts 0 max_color_dist (max_pos_dist w h) pr := by
    intro x y c c'
    have hstep : scanStep (x, y, c) 0 max_color_dist (max_pos_dist w h)
        = scanStep (x, y, c') 0 max_color_dist (max_pos_dist w h) := by
      funext st pt
      simp [scanStep, score]
    have hs : scanPoints (x, y, c) pts 0 max_color_dist (max_pos_dist w h)
        = scanPoints (x, y, c') pts 0 max_color_dist (max_pos_dist w h) := by
      unfold scanPoints
      rw [hstep]
    unfold renderPixel
    rw [hs]
  unfold renderImage
  apply List.map_congr_left
  intro k _
  exact hrp (k % w) (k / w) _ _

/-- Witness for the amended C5: two different 1x1 bases, zero color weight,
identical output. -/
theorem render_base_independent_zero_cw_witness :
    renderImage 1 1 (fun _ _ => ((0, 0, 0) : Color)) [(0, 0, ((5, 5, 5) : Color))] 0 none
      = renderImage 1 1 (fun _ _ => ((255, 255, 255) : Color))
          [(0, 0, ((5, 5, 5) : Color))] 0 none :=
  render_base_independent_zero_cw 1 1 (fun _ _ => (0, 0, 0)) (fun _ _ => (255, 255, 255))
    [(0, 0, (5, 5, 5))] 0 none rfl

